import Mathlib

/-!
Verification of the ctensor neural-network library (diegoroux/cann).

The C sources are shallowly embedded: float buffers become functions
`ℕ → ℚ` (or `ℕ → ℝ` where the code calls `sqrtf`/`logf`), loops over
`for (i = 0; i < n; i++)` become `List.foldl` over `List.range n`, and
in-place stores become pointwise functional updates.  Machine 32-bit
arithmetic (the xoshiro128+ generator) is embedded as `ℕ` arithmetic
with explicit `% 2^32` where C unsigned overflow can occur.
-/

namespace CTensor

/-- Buffers of numeric data: the contents of a malloc'd array, indexed
from its base pointer.  Out-of-range cells simply hold whatever value
the function assigns there. -/
def Buf (α : Type) : Type := ℕ → α

/-- Store `v` at index `k` of buffer `f` (a single C array store). -/
def wr {α : Type} (f : Buf α) (k : ℕ) (v : α) : Buf α :=
  fun n => if n = k then v else f n

/-- Build a buffer from a list (cells past the end hold 0). -/
def listBuf (l : List ℚ) : Buf ℚ := fun i => l.getD i 0

/-!
## Loss functions: `src/lib/loss.c`

`ctensor_mse_fwd` (lines 110-126) accumulates the squared differences
`(expected->data[i] - output->data[i])` over `i < output->size` and then
divides by `output->size`.  `ctensor_mse_bckp` (lines 128-143) sets
`c = -2.0 / output->size` and stores `c * (expected->data[i] -
output->data[i])` into `in_grad->data[i]` for `i < output->size`.
`n` is the size of the loss node's input tensor (the last layer's
output), `expected` and output are the data buffers, `in_grad0` the
prior contents of the loss node's `in_grad` buffer.
-/

def ctensor_mse_fwd (n : ℕ) (expected output : Buf ℚ) : ℚ :=
  ((List.range n).foldl
    (fun network_loss i =>
      network_loss + (expected i - output i) * (expected i - output i)) 0) / n

def ctensor_mse_bckp (n : ℕ) (expected output : Buf ℚ) (in_grad0 : Buf ℚ) : Buf ℚ :=
  let c : ℚ := -2 / n
  (List.range n).foldl (fun g i => wr g i (c * (expected i - output i))) in_grad0

/-!
## ReLU layer callbacks: `src/unnamed/part_005`

`ctensor_relu_fwd` (lines 54-67) stores `(in[i] < 0) ? 0 : in[i]` into
`out[i]` for each `i` below the input size; `ctensor_relu_bckp`
(lines 84-99) stores `(in[i] <= 0) ? 0 : loss[i]` into the layer's
`in_grad` buffer.  `n` is the layer's input size, `inp` the input data,
`loss` the incoming `loss_grad` data, `out0`/`in_grad0` the prior
contents of the destination buffers.
-/

def ctensor_relu_fwd (n : ℕ) (inp : Buf ℚ) (out0 : Buf ℚ) : Buf ℚ :=
  (List.range n).foldl (fun out i => wr out i (if inp i < 0 then 0 else inp i)) out0

def ctensor_relu_bckp (n : ℕ) (inp loss : Buf ℚ) (in_grad0 : Buf ℚ) : Buf ℚ :=
  (List.range n).foldl (fun out i => wr out i (if inp i ≤ 0 then 0 else loss i)) in_grad0

/-!
## Standalone tensor-level ReLU: `src/lib/activations.c`, lines 35-58

A tensor is a size field plus a data buffer.  `ctensor_relu` is modelled
on the path where the caller supplies a non-NULL `out` tensor: it sets
`out->size = in->size` and then stores `(d_in[i] < 0) ? 0 : d_in[i]`
into `d_out[i]` for `i < in->size`.  The embedding returns the pair
(input tensor, updated output tensor) so that the function's effect on
both caller-visible tensors is explicit.
-/

structure CTensorQ where
  size : ℕ
  data : Buf ℚ

def ctensor_relu (tin tout : CTensorQ) : CTensorQ × CTensorQ :=
  (tin,
   { size := tin.size,
     data := (List.range tin.size).foldl
       (fun d_out i => wr d_out i (if tin.data i < 0 then 0 else tin.data i))
       tout.data })

/-!
## Fully-connected layer backward pass: `src/lib/fcl.c`, lines 118-153

Buffers: `inp` is layer->in->data (length in_size), `kernel` the weight
buffer (the internal kernel tensor's data, length out_size*in_size),
`loss_grad` is layer->loss_grad->data (length out_size), `in_grad0` the
prior contents of layer->in_grad->data and `internal_grad0` the prior
contents of layer->internal_grad->data.  kernel_grad is the base of
internal_grad and bias_grad starts at flat offset out_size*in_size.
The C function first zeroes in_grad[0..in_size), then for each output
unit i (outer loop) and input unit j (inner loop) stores
in[j]*loss_grad[i] at flat index i*out_size + j of internal_grad and
adds kernel[i*out_size + j]*loss_grad[i] into in_grad[j]; after each
inner loop it stores loss_grad[i] at flat index out_size*in_size + i.
-/

structure FclBckpSt where
  in_grad : Buf ℚ
  internal_grad : Buf ℚ

/-- One iteration of the inner (j) loop of the FCL backward pass. -/
def fcl_bckp_store (out_size : ℕ) (inp kernel loss_grad : Buf ℚ)
    (i j : ℕ) (st : FclBckpSt) : FclBckpSt :=
  let st := { st with
    internal_grad := wr st.internal_grad (i * out_size + j) (inp j * loss_grad i) }
  { st with
    in_grad := wr st.in_grad j (st.in_grad j + kernel (i * out_size + j) * loss_grad i) }

/-- One iteration of the outer (i) loop: the inner loop over all j,
then the bias-gradient store. -/
def fcl_bckp_row (in_size out_size : ℕ) (inp kernel loss_grad : Buf ℚ)
    (st : FclBckpSt) (i : ℕ) : FclBckpSt :=
  let st := (List.range in_size).foldl
    (fun st j => fcl_bckp_store out_size inp kernel loss_grad i j st) st
  { st with
    internal_grad := wr st.internal_grad (out_size * in_size + i) (loss_grad i) }

def ctensor_fcl_bckp (in_size out_size : ℕ)
    (inp kernel loss_grad in_grad0 internal_grad0 : Buf ℚ) : FclBckpSt :=
  let st0 : FclBckpSt :=
    { in_grad := (List.range in_size).foldl (fun g i => wr g i 0) in_grad0,
      internal_grad := internal_grad0 }
  (List.range out_size).foldl (fcl_bckp_row in_size out_size inp kernel loss_grad) st0

/-!
## Training-loop walks: `src/lib/models.c`

A layer, as seen by the training loop, is abstracted to the two fields
the loop inspects: whether its bckp callback pointer is non-NULL, and
the size of its internal_grad tensor (none when internal_grad is NULL).
Layer lists are given in the traversal order of the backward walk, from
model->lastl following prev pointers toward model->startl.
-/

structure BLayer where
  hasBckp : Bool
  igradSize : Option ℕ

/-- A model's start layer as built by ctensor_init (models.c lines
23-56): bckp is NULL and internal_grad is NULL. -/
def startLayer : BLayer := { hasBckp := false, igradSize := none }

/-- The while loop of _ct_do_bckp (models.c lines 197-228), walking the
given tail-to-head layer list.  `idx` numbers the layers in traversal
order; `off` is the current displacement of grad->data from its value at
entry.  Returns the traversal-order indices of the layers whose bckp
callback was invoked, the (offset, size) slices of the grad buffer into
which an internal_grad was accumulated, and the final displacement. -/
def ct_do_bckp_walk : List BLayer → ℕ → ℕ → List ℕ × List (ℕ × ℕ) × ℕ
  | [], _, off => ([], [], off)
  | pos :: rest, idx, off =>
    if pos.hasBckp = false then ([], [], off)
    else
      match pos.igradSize with
      | none =>
        let r := ct_do_bckp_walk rest (idx + 1) off
        (idx :: r.1, r.2.1, r.2.2)
      | some sz =>
        let r := ct_do_bckp_walk rest (idx + 1) (off + sz)
        (idx :: r.1, (off, sz) :: r.2.1, r.2.2)

/-- _ct_do_bckp: run the walk starting with grad->data at displacement
0, then move grad->data back by the grad->size captured at entry.  The
final component is the net displacement of grad->data, as an integer. -/
def ct_do_bckp (layers : List BLayer) (grad_size : ℕ) : List ℕ × List (ℕ × ℕ) × ℤ :=
  let r := ct_do_bckp_walk layers 0 0
  (r.1, r.2.1, (r.2.2 : ℤ) - (grad_size : ℤ))

/-- _ct_get_model_param_size (models.c lines 261-276): sums
internal_grad->size over the layers reachable from startl->next, i.e.
over every layer of the chain except the start layer (here the list is
in head-to-tail order; the sum does not depend on the order). -/
def ct_get_model_param_size : List BLayer → ℕ
  | [] => 0
  | pos :: rest =>
    (match pos.igradSize with
     | none => 0
     | some sz => sz) + ct_get_model_param_size rest

/-!
## Batch pointer movement: `src/lib/models.c`, lines 278-340

_ct_train_batch advances x_train->data by in_s = model->startl->out->size
and y_train->data by out_s = model->lastl->out->size once per example of
the batch (the ctensor_test calls in the loop body only read the data
buffers), then moves the pointers back by x_train->size and
y_train->size.  The embedding records the two data pointers as integer
displacements from their values at entry.
-/

def ct_train_batch_ptrs (batch_size in_s out_s x_size y_size : ℕ) : ℤ × ℤ :=
  let p := (List.range batch_size).foldl
    (fun (p : ℤ × ℤ) _ => (p.1 + (in_s : ℤ), p.2 + (out_s : ℤ))) (0, 0)
  (p.1 - (x_size : ℤ), p.2 - (y_size : ℤ))

/-!
## Adam optimizer: `src/unnamed/part_004` and `src/lib/optimize.c`

Float arithmetic is embedded as real arithmetic (the code calls sqrtf
and powf, so these elements live in ℝ).
-/

/-- The body of the _ct_adam loop (part_004 lines 38-46) at index i:
overwrite m[i] and v[i] with the decayed moments, form the
bias-corrected mb and vb from the new values, and overwrite grad[i]
with (-lr * mb) / (sqrtf(vb) + 1e-7).  The state is the (grad, m, v)
triple of buffers. -/
noncomputable def ct_adam_step (b1 b2 lr : ℝ) (t : ℕ)
    (st : Buf ℝ × Buf ℝ × Buf ℝ) (i : ℕ) : Buf ℝ × Buf ℝ × Buf ℝ :=
  let grad := st.1
  let m := st.2.1
  let v := st.2.2
  let m := wr m i (b1 * m i + (1 - b1) * grad i)
  let v := wr v i (b2 * v i + (1 - b2) * (grad i * grad i))
  let mb := m i / (1 - b1 ^ t)
  let vb := v i / (1 - b2 ^ t)
  (wr grad i ((-lr * mb) / (Real.sqrt vb + 1e-7)), m, v)

/-- The loop of _ct_adam (part_004 lines 33-49) over all indices below
grad_size.  Returns the updated (grad, m, v) buffers. -/
noncomputable def ct_adam (grad_size : ℕ) (grad m v : Buf ℝ) (b1 b2 lr : ℝ)
    (t : ℕ) : Buf ℝ × Buf ℝ × Buf ℝ :=
  (List.range grad_size).foldl (ct_adam_step b1 b2 lr t) (grad, m, v)

/-- The persistent Adam state (struct _adam_s in optimize.c). -/
structure AdamData where
  t : ℕ
  b1 : ℝ
  b2 : ℝ
  m : Option (Buf ℝ)
  v : Option (Buf ℝ)

/-- ctensor_adam (optimize.c lines 40-57): the optimizer's initial
state. -/
noncomputable def ctensor_adam_init : AdamData :=
  { t := 1, b1 := 0.99, b2 := 0.999, m := none, v := none }

/-- _ct_adam_opt (optimize.c lines 59-82): lazily allocate zeroed m and
v on first use, read t, post-increment the stored counter, and run
_ct_adam.  Returns the transformed gradient buffer and the new optimizer
state. -/
noncomputable def ct_adam_opt (d : AdamData) (grad_size : ℕ) (grad : Buf ℝ)
    (learning_rate : ℝ) : Buf ℝ × AdamData :=
  let m : Buf ℝ := match d.m with
    | none => fun _ => 0
    | some mm => mm
  let v : Buf ℝ := match d.v with
    | none => fun _ => 0
    | some vv => vv
  let t := d.t
  let r := ct_adam grad_size grad m v d.b1 d.b2 learning_rate t
  (r.1, { d with t := t + 1, m := some r.2.1, v := some r.2.2 })

/-!
## Random generators: `src/lib/random.c`

32-bit unsigned arithmetic is embedded as ℕ with explicit reduction
mod 2^32 where C overflow can occur (sums, left shifts, 64-bit
multiplications mod 2^64 in splitmix64).  XOR, OR, AND and right shifts
of values below 2^32 stay below 2^32 and need no reduction.
-/

structure XState where
  s0 : ℕ
  s1 : ℕ
  s2 : ℕ
  s3 : ℕ

/-- The ROTL macro of random.c on 32-bit words. -/
def ROTL (x r : ℕ) : ℕ := ((x <<< r) % 2 ^ 32) ||| (x >>> (32 - r))

/-- Value of the IEEE-754 single-precision bit pattern `b` whose sign
bit is 0 and whose exponent field is 127 (i.e. patterns of the form
mantissa OR 0x3f800000): 1 + mantissa / 2^23, a number in [1, 2); the
mantissa is the low 23 bits of the pattern, written here as b % 2^23.
This models the C code's reinterpretation of such a pattern as a float;
the subsequent subtraction of 1.0 is exact in binary floating point, so
the embedded subtraction over ℚ agrees with the float result. -/
def floatBits127 (b : ℕ) : ℚ := 1 + ((b % 2 ^ 23 : ℕ) : ℚ) / 2 ^ 23

/-- xoshiro128p (random.c lines 60-87): compute the result bit pattern
from the pre-update state, run the state update, and return the float
minus 1.0 together with the new state. -/
def xoshiro128p (s : XState) : ℚ × XState :=
  let res := (((s.s0 + s.s3) % 2 ^ 32) >>> 9) ||| 0x3f800000
  let t := (s.s1 <<< 9) % 2 ^ 32
  let s2 := s.s2 ^^^ s.s0
  let s3 := s.s3 ^^^ s.s1
  let s1 := s.s1 ^^^ s2
  let s0 := s.s0 ^^^ s3
  let s2 := s2 ^^^ t
  let s3 := ROTL s3 11
  (floatBits127 res - 1, { s0 := s0, s1 := s1, s2 := s2, s3 := s3 })

/-- splitmix64 (random.c lines 33-49): 64-bit seed expander; returns
the advanced 64-bit seed and the upper and lower 32 bits of z (the
mask z & 0xffffffff is written as z % 2^32). -/
def splitmix64 (x : ℕ) : ℕ × ℕ × ℕ :=
  let z := ((x ^^^ (x >>> 30)) * 0xbf58476d1ce4e5b9) % 2 ^ 64
  let z := ((z ^^^ (z >>> 27)) * 0x94d049bb133111eb) % 2 ^ 64
  let z := z ^^^ (z >>> 31)
  ((x + 0x9e3779b97f4a7c15) % 2 ^ 64, z >>> 32, z % 2 ^ 32)

/-- The two splitmix64 calls that seed the 4-word xoshiro state in
ctensor_randu and ctensor_randn. -/
def seedState (seed : ℕ) : XState :=
  let r1 := splitmix64 seed
  let r2 := splitmix64 r1.1
  { s0 := r1.2.1, s1 := r1.2.2, s2 := r2.2.1, s3 := r2.2.2 }

/-!
## Normal fill (Marsaglia polar): `src/lib/random.c`, lines 125-185

The do/while rejection loop of the even case is embedded with a fuel
bound (the C loop has no bound; none models a run that never accepts
within the given fuel).  The chi variate calls sqrtf and logf, so it
lives in ℝ; the draws x, y and the radicand s are exact rationals.
-/

/-- The do { x = u*2-1; y = u*2-1; s = x*x+y*y; } while (s == 0 || s >= 1)
loop: draw two uniforms, and repeat until 0 < s < 1.  Returns the
accepted x, y, s and the generator state after the accepted draw. -/
def polar_reject : ℕ → XState → Option (ℚ × ℚ × ℚ × XState)
  | 0, _ => none
  | fuel + 1, st =>
    let r1 := xoshiro128p st
    let x := r1.1 * 2 - 1
    let r2 := xoshiro128p r1.2
    let y := r2.1 * 2 - 1
    let s := x * x + y * y
    if s = 0 ∨ 1 ≤ s then polar_reject fuel r2.2 else some (x, y, s, r2.2)

/-- The chi variate s = sqrtf(-2.0 * logf(s) / s) computed at line 169
of random.c (1/sqrt(s) folded into chi). -/
noncomputable def chiOf (s : ℚ) : ℝ := Real.sqrt (-2 * Real.log (s : ℝ) / (s : ℝ))

/-- The for loop of ctensor_randn over the element indices: even
indices run a full pair draw and store x*chi, odd indices reuse the
pending y and chi and store y*chi.  The result carries the produced
elements in order, plus the final values of the generator state and of
the local variables y and chi. -/
noncomputable def randn_loop (fuel : ℕ) :
    List ℕ → XState → ℚ → ℝ → Option (List ℝ × XState × ℚ × ℝ)
  | [], st, y, chi => some ([], st, y, chi)
  | i :: rest, st, y, chi =>
    if i % 2 = 0 then
      match polar_reject fuel st with
      | none => none
      | some (x, y2, s, st2) =>
        let chi2 := chiOf s
        match randn_loop fuel rest st2 y2 chi2 with
        | none => none
        | some (out, stf, yf, chif) => some (((x : ℝ) * chi2) :: out, stf, yf, chif)
    else
      match randn_loop fuel rest st y chi with
      | none => none
      | some (out, stf, yf, chif) => some (((y : ℝ) * chi) :: out, stf, yf, chif)

/-- ctensor_randn (random.c lines 125-185): seed the state from the
64-bit seed, then fill all size elements.  The y and chi locals are
uninitialized in C; they are passed as 0 here and are never read before
being set, since the loop starts at the even index 0. -/
noncomputable def ctensor_randn (fuel size seed : ℕ) :
    Option (List ℝ × XState × ℚ × ℝ) :=
  randn_loop fuel (List.range size) (seedState seed) 0 0

/-- Iterate the accepted-pair draw m times from a given state,
collecting the accepted (x, y, s) triples and the final state.  This is
the reference chain of pair draws against which the randn loop is
stated. -/
def pair_iter (fuel : ℕ) : ℕ → XState → Option (List (ℚ × ℚ × ℚ) × XState)
  | 0, st => some ([], st)
  | m + 1, st =>
    match polar_reject fuel st with
    | none => none
    | some (x, y, s, st2) =>
      match pair_iter fuel m st2 with
      | none => none
      | some (ps, stf) => some ((x, y, s) :: ps, stf)

/-- The two outputs x*chi, y*chi contributed by one accepted pair. -/
noncomputable def pair_out (p : ℚ × ℚ × ℚ) : List ℝ :=
  [(p.1 : ℝ) * chiOf p.2.2, (p.2.1 : ℝ) * chiOf p.2.2]

/-- The outputs contributed by a list of accepted pairs, in order. -/
noncomputable def pairs_out (ps : List (ℚ × ℚ × ℚ)) : List ℝ :=
  (ps.map pair_out).flatten

/-!
## Helper lemmas
-/

theorem wr_self {α : Type} (f : Buf α) (k : ℕ) (v : α) : wr f k v k = v := by
  simp [wr]

theorem wr_other {α : Type} (f : Buf α) (k : ℕ) (v : α) {n : ℕ} (h : n ≠ k) :
    wr f k v n = f n := by
  simp [wr, h]

/-- A fold over `List.range n` that writes value `val i` into cell `i`
for each `i < n` leaves cell `j` holding `val j` when `j < n` and the
initial contents otherwise. -/
theorem foldl_wr_range {α : Type} (val : ℕ → α) :
    ∀ (n : ℕ) (g0 : Buf α) (j : ℕ),
      ((List.range n).foldl (fun g i => wr g i (val i)) g0) j =
        if j < n then val j else g0 j := by
  intro n
  induction n with
  | zero => intro g0 j; simp
  | succ n ih =>
    intro g0 j
    rw [List.range_succ, List.foldl_append]
    simp only [List.foldl_cons, List.foldl_nil]
    by_cases hj : j = n
    · subst hj
      simp [wr_self, ih]
    · rw [wr_other _ _ _ hj, ih]
      rcases Nat.lt_trichotomy j n with h | h | h
      · simp [h, Nat.lt_succ_of_lt h]
      · exact absurd h hj
      · have h1 : ¬ j < n := by omega
        have h2 : ¬ j < n + 1 := by omega
        simp [h1, h2]

/-- A fold over `List.range n` that only accumulates into a scalar:
`acc + f 0 + f 1 + ... + f (n-1)`. -/
theorem foldl_add_range (f : ℕ → ℚ) :
    ∀ (n : ℕ) (a : ℚ),
      (List.range n).foldl (fun acc i => acc + f i) a =
        a + ∑ i ∈ Finset.range n, f i := by
  intro n
  induction n with
  | zero => intro a; simp
  | succ n ih =>
    intro a
    rw [List.range_succ, List.foldl_append, ih, Finset.sum_range_succ]
    simp only [List.foldl_cons, List.foldl_nil]
    ring

theorem if_neg_lt_eq_max (x : ℚ) : (if x < 0 then (0 : ℚ) else x) = max 0 x := by
  rcases le_or_lt 0 x with h | h
  · rw [if_neg (not_lt.mpr h), max_eq_right h]
  · rw [if_pos h, max_eq_left (le_of_lt h)]

/-- Walking a chain that contains a layer with no bckp callback gives
the same result as walking only the part after it (in traversal order):
the walk breaks there, whatever follows. -/
theorem ct_do_bckp_walk_break (l : BLayer) (hl : l.hasBckp = false) :
    ∀ (pre post : List BLayer) (idx off : ℕ),
      ct_do_bckp_walk (pre ++ l :: post) idx off = ct_do_bckp_walk pre idx off := by
  intro pre
  induction pre with
  | nil =>
    intro post idx off
    simp [ct_do_bckp_walk, hl]
  | cons p pre ih =>
    intro post idx off
    rw [List.cons_append]
    by_cases hp : p.hasBckp = false
    · simp [ct_do_bckp_walk, hp]
    · simp only [ct_do_bckp_walk, hp, if_false]
      cases p.igradSize with
      | none => simp [ih]
      | some sz => simp [ih]

/-- In a chain whose layers all have a bckp callback, the walk invokes
every layer, in order. -/
theorem ct_do_bckp_walk_invoked :
    ∀ (ls : List BLayer), (∀ p ∈ ls, p.hasBckp = true) →
      ∀ (idx off : ℕ), (ct_do_bckp_walk ls idx off).1 = List.range' idx ls.length := by
  intro ls
  induction ls with
  | nil => intro _ idx off; simp [ct_do_bckp_walk]
  | cons p rest ih =>
    intro hall idx off
    have hp : p.hasBckp = true := hall p (List.mem_cons_self p rest)
    have hr : ∀ q ∈ rest, q.hasBckp = true := fun q hq => hall q (List.mem_cons_of_mem p hq)
    cases hig : p.igradSize with
    | none => simp [ct_do_bckp_walk, hp, hig, ih hr, List.range']
    | some sz => simp [ct_do_bckp_walk, hp, hig, ih hr, List.range']

/-- In a chain whose layers all have a bckp callback, the displacement
of grad->data after the walk is the entry displacement plus the sum of
the internal_grad sizes of the chain's layers. -/
theorem ct_do_bckp_walk_off :
    ∀ (ls : List BLayer), (∀ p ∈ ls, p.hasBckp = true) →
      ∀ (idx off : ℕ),
        (ct_do_bckp_walk ls idx off).2.2 = off + ct_get_model_param_size ls := by
  intro ls
  induction ls with
  | nil => intro _ idx off; simp [ct_do_bckp_walk, ct_get_model_param_size]
  | cons p rest ih =>
    intro hall idx off
    have hp : p.hasBckp = true := hall p (List.mem_cons_self p rest)
    have hr : ∀ q ∈ rest, q.hasBckp = true := fun q hq => hall q (List.mem_cons_of_mem p hq)
    cases hig : p.igradSize with
    | none => simp [ct_do_bckp_walk, hp, hig, ih hr, ct_get_model_param_size]
    | some sz =>
      simp [ct_do_bckp_walk, hp, hig, ih hr, ct_get_model_param_size]
      omega

/-- In a chain whose layers all have a bckp callback, every (offset,
size) slice accumulated by the walk lies between the entry displacement
and the final displacement of grad->data. -/
theorem ct_do_bckp_walk_slices :
    ∀ (ls : List BLayer), (∀ p ∈ ls, p.hasBckp = true) →
      ∀ (idx off : ℕ), ∀ os ∈ (ct_do_bckp_walk ls idx off).2.1,
        off ≤ os.1 ∧ os.1 + os.2 ≤ (ct_do_bckp_walk ls idx off).2.2 := by
  intro ls
  induction ls with
  | nil => intro _ idx off os hos; simp [ct_do_bckp_walk] at hos
  | cons p rest ih =>
    intro hall idx off os hos
    have hp : p.hasBckp = true := hall p (List.mem_cons_self p rest)
    have hr : ∀ q ∈ rest, q.hasBckp = true := fun q hq => hall q (List.mem_cons_of_mem p hq)
    cases hig : p.igradSize with
    | none =>
      simp only [ct_do_bckp_walk, hp, hig, Bool.true_eq_false, if_false] at hos ⊢
      have h := ih hr (idx + 1) off os hos
      exact ⟨h.1, h.2⟩
    | some sz =>
      simp only [ct_do_bckp_walk, hp, hig, Bool.true_eq_false, if_false] at hos ⊢
      rcases List.mem_cons.mp hos with h | h
      · subst h
        refine ⟨le_refl _, ?_⟩
        rw [ct_do_bckp_walk_off rest hr]
        omega
      · have h2 := ih hr (idx + 1) (off + sz) os h
        exact ⟨by omega, h2.2⟩

/-- The total parameter size of a chain is invariant under appending. -/
theorem ct_get_model_param_size_append :
    ∀ (a b : List BLayer),
      ct_get_model_param_size (a ++ b) =
        ct_get_model_param_size a + ct_get_model_param_size b := by
  intro a b
  induction a with
  | nil => simp [ct_get_model_param_size]
  | cons p rest ih =>
    rw [List.cons_append]
    cases hig : p.igradSize with
    | none => simp [ct_get_model_param_size, hig, ih]
    | some sz =>
      simp [ct_get_model_param_size, hig, ih]
      omega

/-- The total parameter size of a chain is invariant under reversal
(the C code sums it head-to-tail; the backward walk visits the layers
tail-to-head). -/
theorem ct_get_model_param_size_reverse :
    ∀ (ls : List BLayer),
      ct_get_model_param_size ls.reverse = ct_get_model_param_size ls := by
  intro ls
  induction ls with
  | nil => rfl
  | cons p rest ih =>
    rw [List.reverse_cons, ct_get_model_param_size_append, ih]
    cases hig : p.igradSize with
    | none => simp [ct_get_model_param_size, hig]
    | some sz =>
      simp [ct_get_model_param_size, hig]
      omega

/-- A fold over `List.range n` that adds constants a and b to the two
components of a pair, once per element. -/
theorem foldl_const_add (a b : ℤ) :
    ∀ (n : ℕ) (p : ℤ × ℤ),
      (List.range n).foldl (fun p _ => (p.1 + a, p.2 + b)) p =
        (p.1 + n * a, p.2 + n * b) := by
  intro n
  induction n with
  | zero => intro p; simp
  | succ n ih =>
    intro p
    rw [List.range_succ, List.foldl_append, ih]
    simp only [List.foldl_cons, List.foldl_nil]
    rw [Prod.mk.injEq]
    constructor <;> (push_cast; ring)

/-- Element-wise description of one _ct_adam sweep: indices below
grad_size carry the updated moments and transformed gradient, indices
at or above it are untouched. -/
theorem ct_adam_get (g m v : Buf ℝ) (b1 b2 lr : ℝ) (t : ℕ) :
    ∀ (n : ℕ) (i : ℕ),
      ((ct_adam n g m v b1 b2 lr t).1 i =
        if i < n then
          (-lr * ((b1 * m i + (1 - b1) * g i) / (1 - b1 ^ t))) /
            (Real.sqrt ((b2 * v i + (1 - b2) * (g i * g i)) / (1 - b2 ^ t)) + 1e-7)
        else g i)
      ∧ ((ct_adam n g m v b1 b2 lr t).2.1 i =
          if i < n then b1 * m i + (1 - b1) * g i else m i)
      ∧ ((ct_adam n g m v b1 b2 lr t).2.2 i =
          if i < n then b2 * v i + (1 - b2) * (g i * g i) else v i) := by
  intro n
  induction n with
  | zero => intro i; simp [ct_adam]
  | succ n ih =>
    intro i
    have hstep : ct_adam (n + 1) g m v b1 b2 lr t =
        ct_adam_step b1 b2 lr t (ct_adam n g m v b1 b2 lr t) n := by
      rw [ct_adam, ct_adam, List.range_succ, List.foldl_append]
      rfl
    rw [hstep]
    by_cases hin : i = n
    · subst hin
      have h1 : (ct_adam i g m v b1 b2 lr t).1 i = g i := by
        rw [(ih i).1, if_neg (lt_irrefl i)]
      have h2 : (ct_adam i g m v b1 b2 lr t).2.1 i = m i := by
        rw [(ih i).2.1, if_neg (lt_irrefl i)]
      have h3 : (ct_adam i g m v b1 b2 lr t).2.2 i = v i := by
        rw [(ih i).2.2, if_neg (lt_irrefl i)]
      refine ⟨?_, ?_, ?_⟩ <;>
        simp [ct_adam_step, wr_self, h1, h2, h3, Nat.lt_succ_self]
    · have hlt : i < n + 1 ↔ i < n := by omega
      obtain ⟨ih1, ih2, ih3⟩ := ih i
      refine ⟨?_, ?_, ?_⟩ <;>
        (simp only [ct_adam_step, wr_other _ _ _ hin, hlt]) <;>
        first
          | exact ih1
          | exact ih2
          | exact ih3

theorem fcl_store_ig (out_size : ℕ) (inp kernel lg : Buf ℚ) (i j : ℕ) (st : FclBckpSt) :
    (fcl_bckp_store out_size inp kernel lg i j st).in_grad =
      wr st.in_grad j (st.in_grad j + kernel (i * out_size + j) * lg i) := rfl

theorem fcl_store_kg (out_size : ℕ) (inp kernel lg : Buf ℚ) (i j : ℕ) (st : FclBckpSt) :
    (fcl_bckp_store out_size inp kernel lg i j st).internal_grad =
      wr st.internal_grad (i * out_size + j) (inp j * lg i) := rfl

/-- After the inner (j) loop of FCL backward row i, cell j of in_grad
has gained kernel[i*out_size+j]*loss_grad[i] when j is below the loop
bound, and is untouched otherwise. -/
theorem fcl_inner_ig (out_size : ℕ) (inp kernel lg : Buf ℚ) (i : ℕ) :
    ∀ (n : ℕ) (st : FclBckpSt) (j : ℕ),
      ((List.range n).foldl
        (fun st j => fcl_bckp_store out_size inp kernel lg i j st) st).in_grad j =
        if j < n then st.in_grad j + kernel (i * out_size + j) * lg i
        else st.in_grad j := by
  intro n
  induction n with
  | zero => intro st j; simp
  | succ n ih =>
    intro st j
    rw [List.range_succ, List.foldl_append]
    simp only [List.foldl_cons, List.foldl_nil, fcl_store_ig]
    by_cases hj : j = n
    · subst hj
      rw [wr_self, ih, if_neg (lt_irrefl j), if_pos (Nat.lt_succ_self j)]
    · rw [wr_other _ _ _ hj, ih]
      have : (j < n + 1) ↔ (j < n) := by omega
      simp only [this]

/-- After the inner (j) loop of FCL backward row i, cell k of
internal_grad holds in[k - i*out_size]*loss_grad[i] when k lies in the
write range of the row, and is untouched otherwise. -/
theorem fcl_inner_kg (out_size : ℕ) (inp kernel lg : Buf ℚ) (i : ℕ) :
    ∀ (n : ℕ) (st : FclBckpSt) (k : ℕ),
      ((List.range n).foldl
        (fun st j => fcl_bckp_store out_size inp kernel lg i j st) st).internal_grad k =
        if i * out_size ≤ k ∧ k < i * out_size + n then inp (k - i * out_size) * lg i
        else st.internal_grad k := by
  intro n
  induction n with
  | zero =>
    intro st k
    have hc : ¬ (i * out_size ≤ k ∧ k < i * out_size + 0) := by omega
    simp only [List.range_zero, List.foldl_nil, if_neg hc]
  | succ n ih =>
    intro st k
    rw [List.range_succ, List.foldl_append]
    simp only [List.foldl_cons, List.foldl_nil, fcl_store_kg]
    by_cases hk : k = i * out_size + n
    · subst hk
      rw [wr_self]
      have hc : i * out_size ≤ i * out_size + n ∧
          i * out_size + n < i * out_size + (n + 1) := by omega
      rw [if_pos hc, Nat.add_sub_cancel_left]
    · rw [wr_other _ _ _ hk, ih]
      have : (i * out_size ≤ k ∧ k < i * out_size + (n + 1)) ↔
          (i * out_size ≤ k ∧ k < i * out_size + n) := by omega
      simp only [this]

/-- Effect of one full outer iteration (row i) on in_grad. -/
theorem fcl_row_ig (in_size out_size : ℕ) (inp kernel lg : Buf ℚ)
    (st : FclBckpSt) (i j : ℕ) :
    (fcl_bckp_row in_size out_size inp kernel lg st i).in_grad j =
      if j < in_size then st.in_grad j + kernel (i * out_size + j) * lg i
      else st.in_grad j := by
  rw [fcl_bckp_row]
  exact fcl_inner_ig out_size inp kernel lg i in_size st j

/-- Effect of one full outer iteration (row i) on internal_grad: the
bias store wins at its own cell, the kernel stores cover the row's
write range, everything else is untouched. -/
theorem fcl_row_kg (in_size out_size : ℕ) (inp kernel lg : Buf ℚ)
    (st : FclBckpSt) (i k : ℕ) :
    (fcl_bckp_row in_size out_size inp kernel lg st i).internal_grad k =
      if k = out_size * in_size + i then lg i
      else if i * out_size ≤ k ∧ k < i * out_size + in_size then
        inp (k - i * out_size) * lg i
      else st.internal_grad k := by
  rw [fcl_bckp_row]
  show wr _ (out_size * in_size + i) (lg i) k = _
  by_cases hk : k = out_size * in_size + i
  · subst hk
    rw [wr_self, if_pos rfl]
  · rw [wr_other _ _ _ hk, if_neg hk]
    exact fcl_inner_kg out_size inp kernel lg i in_size st k

/-- After m outer iterations, in_grad cell j (j below in_size) has
accumulated the sum of kernel[i*out_size+j]*loss_grad[i] over the rows
processed. -/
theorem fcl_outer_ig (in_size out_size : ℕ) (inp kernel lg : Buf ℚ) :
    ∀ (m : ℕ) (st : FclBckpSt) (j : ℕ), j < in_size →
      ((List.range m).foldl (fcl_bckp_row in_size out_size inp kernel lg) st).in_grad j =
        st.in_grad j + ∑ i ∈ Finset.range m, kernel (i * out_size + j) * lg i := by
  intro m
  induction m with
  | zero => intro st j _; simp
  | succ m ih =>
    intro st j hj
    rw [List.range_succ, List.foldl_append]
    simp only [List.foldl_cons, List.foldl_nil]
    rw [fcl_row_ig, if_pos hj, ih st j hj, Finset.sum_range_succ]
    ring

/-- After m outer iterations (m at most out_size, out_size at most
in_size), the bias cell of each processed row i0 holds loss_grad[i0]:
later rows write strictly below the bias region. -/
theorem fcl_outer_bias (in_size out_size : ℕ) (inp kernel lg : Buf ℚ)
    (hoi : out_size ≤ in_size) :
    ∀ (m : ℕ), m ≤ out_size → ∀ (st : FclBckpSt) (i0 : ℕ), i0 < m →
      ((List.range m).foldl (fcl_bckp_row in_size out_size inp kernel lg) st).internal_grad
          (out_size * in_size + i0) = lg i0 := by
  intro m
  induction m with
  | zero => intro _ st i0 h; omega
  | succ m ih =>
    intro hm st i0 hi0
    rw [List.range_succ, List.foldl_append]
    simp only [List.foldl_cons, List.foldl_nil]
    rw [fcl_row_kg]
    by_cases he : i0 = m
    · subst he
      rw [if_pos rfl]
    · have hne : out_size * in_size + i0 ≠ out_size * in_size + m := by omega
      rw [if_neg hne]
      have hkey : m * out_size + in_size ≤ out_size * in_size := by
        have ha : m * out_size ≤ m * in_size := Nat.mul_le_mul_left m hoi
        have hb : (m + 1) * in_size ≤ out_size * in_size :=
          Nat.mul_le_mul_right in_size hm
        rw [Nat.succ_mul] at hb
        omega
      have hc : ¬ (m * out_size ≤ out_size * in_size + i0 ∧
          out_size * in_size + i0 < m * out_size + in_size) := by omega
      rw [if_neg hc]
      exact ih (by omega) st i0 (by omega)

/-- After m outer iterations in the square case in_size = out_size, the
kernel-gradient cell i0*out_size+j of each processed row holds
in[j]*loss_grad[i0]: rows write disjoint ranges below the bias
region. -/
theorem fcl_outer_kernel (in_size out_size : ℕ) (inp kernel lg : Buf ℚ)
    (hsq : in_size = out_size) :
    ∀ (m : ℕ), m ≤ out_size → ∀ (st : FclBckpSt) (i0 j : ℕ), i0 < m → j < in_size →
      ((List.range m).foldl (fcl_bckp_row in_size out_size inp kernel lg) st).internal_grad
          (i0 * out_size + j) = inp j * lg i0 := by
  subst hsq
  intro m
  induction m with
  | zero => intro _ st i0 j h _; omega
  | succ m ih =>
    intro hm st i0 j hi0 hj
    rw [List.range_succ, List.foldl_append]
    simp only [List.foldl_cons, List.foldl_nil]
    rw [fcl_row_kg]
    have hi0o : i0 < in_size := by omega
    have hlt : i0 * in_size + j < in_size * in_size := by
      have hb : (i0 + 1) * in_size ≤ in_size * in_size :=
        Nat.mul_le_mul_right in_size hi0o
      rw [Nat.succ_mul] at hb
      omega
    have hne : i0 * in_size + j ≠ in_size * in_size + m := by omega
    rw [if_neg hne]
    by_cases he : i0 = m
    · subst he
      have hc : i0 * in_size ≤ i0 * in_size + j ∧
          i0 * in_size + j < i0 * in_size + in_size := by omega
      rw [if_pos hc, Nat.add_sub_cancel_left]
    · have hlt2 : i0 * in_size + j < m * in_size := by
        have hb : (i0 + 1) * in_size ≤ m * in_size :=
          Nat.mul_le_mul_right in_size (by omega)
        rw [Nat.succ_mul] at hb
        omega
      have hc : ¬ (m * in_size ≤ i0 * in_size + j ∧
          i0 * in_size + j < m * in_size + in_size) := by omega
      rw [if_neg hc]
      exact ih (by omega) st i0 j (by omega) hj

theorem pairs_out_nil : pairs_out [] = [] := rfl

theorem pairs_out_cons (p : ℚ × ℚ × ℚ) (ps : List (ℚ × ℚ × ℚ)) :
    pairs_out (p :: ps) =
      (p.1 : ℝ) * chiOf p.2.2 :: (p.2.1 : ℝ) * chiOf p.2.2 :: pairs_out ps := by
  simp [pairs_out, pair_out]

theorem randn_loop_pairs (fuel : ℕ) :
    ∀ (m : ℕ) (a : ℕ) (st : XState) (y : ℚ) (chi : ℝ)
      (ps : List (ℚ × ℚ × ℚ)) (stf : XState),
      a % 2 = 0 →
      pair_iter fuel m st = some (ps, stf) →
      ∃ y2 chi2, randn_loop fuel (List.range' a (2 * m)) st y chi =
        some (pairs_out ps, stf, y2, chi2) := by
  intro m
  induction m with
  | zero =>
    intro a st y chi ps stf _ h
    rw [pair_iter] at h
    simp only [Option.some.injEq, Prod.mk.injEq] at h
    obtain ⟨h1, h2⟩ := h
    subst h1
    subst h2
    exact ⟨y, chi, by simp [randn_loop, pairs_out]⟩
  | succ m ih =>
    intro a st y chi ps stf ha h
    rw [pair_iter] at h
    cases hr : polar_reject fuel st with
    | none => rw [hr] at h; exact absurd h (by simp)
    | some r =>
      obtain ⟨x, yd, s, st2⟩ := r
      rw [hr] at h
      dsimp only at h
      cases hpi : pair_iter fuel m st2 with
      | none => rw [hpi] at h; exact absurd h (by simp)
      | some q =>
        obtain ⟨ps2, stf2⟩ := q
        rw [hpi] at h
        dsimp only at h
        simp only [Option.some.injEq, Prod.mk.injEq] at h
        obtain ⟨h1, h2⟩ := h
        subst h1
        subst h2
        obtain ⟨y3, chi3, hrec⟩ := ih (a + 2) st2 yd (chiOf s) ps2 stf2 (by omega) hpi
        refine ⟨y3, chi3, ?_⟩
        have hsplit : List.range' a (2 * (m + 1)) =
            a :: (a + 1) :: List.range' (a + 2) (2 * m) := by
          have h2m : 2 * (m + 1) = 2 * m + 1 + 1 := by ring
          rw [h2m, List.range'_succ, List.range'_succ]
        rw [hsplit]
        have ha1 : ¬ ((a + 1) % 2 = 0) := by omega
        rw [randn_loop, if_pos ha, hr]
        simp only
        rw [randn_loop, if_neg ha1, hrec]
        simp only
        rw [pairs_out_cons]

theorem randn_loop_append (fuel : ℕ) :
    ∀ (l1 l2 : List ℕ) (st : XState) (y : ℚ) (chi : ℝ),
      randn_loop fuel (l1 ++ l2) st y chi =
        match randn_loop fuel l1 st y chi with
        | none => none
        | some (out1, st1, y1, chi1) =>
          match randn_loop fuel l2 st1 y1 chi1 with
          | none => none
          | some (out2, st2, y2, chi2) => some (out1 ++ out2, st2, y2, chi2) := by
  intro l1
  induction l1 with
  | nil =>
    intro l2 st y chi
    rw [List.nil_append]
    cases h : randn_loop fuel l2 st y chi with
    | none => rw [randn_loop]; dsimp only; rw [h]
    | some r =>
      obtain ⟨o2, st2, y2, chi2⟩ := r
      rw [randn_loop]
      dsimp only
      rw [h]
      dsimp only
      rw [List.nil_append]
  | cons i l1 ih =>
    intro l2 st y chi
    rw [List.cons_append]
    by_cases hi : i % 2 = 0
    · rw [randn_loop, if_pos hi, randn_loop, if_pos hi]
      cases hr : polar_reject fuel st with
      | none => rfl
      | some r =>
        obtain ⟨x, yd, s, st2⟩ := r
        dsimp only
        rw [ih]
        cases h1 : randn_loop fuel l1 st2 yd (chiOf s) with
        | none => rfl
        | some r1 =>
          obtain ⟨o1, sa, ya, ca⟩ := r1
          dsimp only
          cases h2 : randn_loop fuel l2 sa ya ca with
          | none => rfl
          | some r2 =>
            obtain ⟨o2, sb, yb, cb⟩ := r2
            dsimp only
            rw [List.cons_append]
    · rw [randn_loop, if_neg hi, randn_loop, if_neg hi]
      rw [ih]
      cases h1 : randn_loop fuel l1 st y chi with
      | none => rfl
      | some r1 =>
        obtain ⟨o1, sa, ya, ca⟩ := r1
        dsimp only
        cases h2 : randn_loop fuel l2 sa ya ca with
        | none => rfl
        | some r2 =>
          obtain ⟨o2, sb, yb, cb⟩ := r2
          dsimp only
          rw [List.cons_append]

theorem polar_reject_sound :
    ∀ (fuel : ℕ) (st : XState) (x y s : ℚ) (st2 : XState),
      polar_reject fuel st = some (x, y, s, st2) →
      s = x * x + y * y ∧ 0 < s ∧ s < 1 ∧
      ∃ stm : XState,
        x = (xoshiro128p stm).1 * 2 - 1 ∧
        y = (xoshiro128p (xoshiro128p stm).2).1 * 2 - 1 ∧
        st2 = (xoshiro128p (xoshiro128p stm).2).2 := by
  intro fuel
  induction fuel with
  | zero => intro st x y s st2 h; simp [polar_reject] at h
  | succ fuel ih =>
    intro st x y s st2 h
    rw [polar_reject] at h
    split at h
    · exact ih _ x y s st2 h
    · next hcond =>
      push_neg at hcond
      simp only [Option.some.injEq, Prod.mk.injEq] at h
      obtain ⟨hx, hy, hs, hst⟩ := h
      subst hx
      subst hy
      subst hs
      subst hst
      refine ⟨rfl, ?_, hcond.2, ⟨st, rfl, rfl, rfl⟩⟩
      have hnn : (0 : ℚ) ≤ ((xoshiro128p st).1 * 2 - 1) * ((xoshiro128p st).1 * 2 - 1) +
          ((xoshiro128p (xoshiro128p st).2).1 * 2 - 1) *
            ((xoshiro128p (xoshiro128p st).2).1 * 2 - 1) :=
        add_nonneg (mul_self_nonneg _) (mul_self_nonneg _)
      exact lt_of_le_of_ne hnn (Ne.symm hcond.1)

theorem pair_iter_sound :
    ∀ (fuel m : ℕ) (st : XState) (ps : List (ℚ × ℚ × ℚ)) (stf : XState),
      pair_iter fuel m st = some (ps, stf) →
      ∀ p ∈ ps, p.2.2 = p.1 * p.1 + p.2.1 * p.2.1 ∧ 0 < p.2.2 ∧ p.2.2 < 1 := by
  intro fuel m
  induction m with
  | zero =>
    intro st ps stf h p hp
    rw [pair_iter] at h
    simp only [Option.some.injEq, Prod.mk.injEq] at h
    rw [← h.1] at hp
    simp at hp
  | succ m ih =>
    intro st ps stf h p hp
    rw [pair_iter] at h
    cases hr : polar_reject fuel st with
    | none => rw [hr] at h; exact absurd h (by simp)
    | some r =>
      obtain ⟨x, yd, s, st2⟩ := r
      rw [hr] at h
      dsimp only at h
      cases hpi : pair_iter fuel m st2 with
      | none => rw [hpi] at h; exact absurd h (by simp)
      | some q =>
        obtain ⟨ps2, stf2⟩ := q
        rw [hpi] at h
        dsimp only at h
        simp only [Option.some.injEq, Prod.mk.injEq] at h
        obtain ⟨h1, h2⟩ := h
        subst h1
        rcases List.mem_cons.mp hp with hp1 | hp2
        · subst hp1
          obtain ⟨hs, h0, h1lt, _⟩ := polar_reject_sound fuel st x yd s st2 hr
          exact ⟨hs, h0, h1lt⟩
        · exact ih st2 ps2 stf2 hpi p hp2


/-!
## Claim theorems
-/

/-- Claim C5: the MSE forward pass returns (1/n) times the sum of the
squared differences expected[i] - output[i], the MSE backward pass
writes in_grad[i] = (-2/n) * (expected[i] - output[i]) for every i
below n, forward on expected=[1,0], output=[1,0] returns 0, and forward
on expected=[1,0], output=[0,1] returns 1. -/
theorem C5_mse_correct (n : ℕ) (expected output in_grad0 : Buf ℚ) :
    ctensor_mse_fwd n expected output =
      (∑ i ∈ Finset.range n, (expected i - output i) ^ 2) / n
    ∧ (∀ j, j < n →
        ctensor_mse_bckp n expected output in_grad0 j =
          (-2 / n) * (expected j - output j))
    ∧ ctensor_mse_fwd 2 (listBuf [1, 0]) (listBuf [1, 0]) = 0
    ∧ ctensor_mse_fwd 2 (listBuf [1, 0]) (listBuf [0, 1]) = 1 := by
  refine ⟨?_, ?_, by norm_num [ctensor_mse_fwd, listBuf, List.range_succ],
    by norm_num [ctensor_mse_fwd, listBuf, List.range_succ]⟩
  · rw [ctensor_mse_fwd, foldl_add_range]
    rw [zero_add]
    congr 1
    exact Finset.sum_congr rfl fun i _ => (pow_two _).symm
  · intro j hj
    rw [ctensor_mse_bckp]
    rw [foldl_wr_range]
    simp [hj]

/-- Witness for C5: the backward formula instantiated at n = 2,
expected = [1,0], output = [0,1], index 0 gives -1. -/
theorem C5_mse_correct_witness :
    ctensor_mse_bckp 2 (listBuf [1, 0]) (listBuf [0, 1]) (listBuf []) 0 = -1 := by
  have h := (C5_mse_correct 2 (listBuf [1, 0]) (listBuf [0, 1]) (listBuf [])).2.1 0
    (by decide)
  rw [h]
  norm_num [listBuf]

/-- Claim C6: the ReLU layer's forward pass writes out[i] = max(0, x[i])
for every i below the input size, and its backward pass writes
in_grad[i] = loss_grad[i] where x[i] > 0 and 0 where x[i] <= 0, gated by
the sign of the forward input. -/
theorem C6_relu_layer_correct (n : ℕ) (inp loss out0 in_grad0 : Buf ℚ)
    (i : ℕ) (hi : i < n) :
    ctensor_relu_fwd n inp out0 i = max 0 (inp i)
    ∧ ctensor_relu_bckp n inp loss in_grad0 i = if 0 < inp i then loss i else 0 := by
  constructor
  · rw [ctensor_relu_fwd, foldl_wr_range, if_pos hi, if_neg_lt_eq_max]
  · rw [ctensor_relu_bckp, foldl_wr_range, if_pos hi]
    rcases le_or_lt (inp i) 0 with h | h
    · rw [if_pos h, if_neg (not_lt.mpr h)]
    · rw [if_neg (not_le.mpr h), if_pos h]

/-- Witness for C6: inputs [-3, 5] with loss gradient [7, 7]; the
forward pass yields 0 at index 0 and the backward pass yields 0 there
as well, since the input is negative. -/
theorem C6_relu_layer_correct_witness :
    ctensor_relu_fwd 2 (listBuf [-3, 5]) (listBuf []) 0 = 0
    ∧ ctensor_relu_bckp 2 (listBuf [-3, 5]) (listBuf [7, 7]) (listBuf []) 0 = 0 := by
  have h := C6_relu_layer_correct 2 (listBuf [-3, 5]) (listBuf [7, 7])
    (listBuf []) (listBuf []) 0 (by decide)
  refine ⟨?_, ?_⟩
  · rw [h.1]; norm_num [listBuf]
  · rw [h.2]; norm_num [listBuf]

/-- Claim C10: the standalone tensor-level ReLU with a caller-supplied
output tensor overwrites the output tensor's size field with the input
tensor's size (for every output tensor, so in particular when the sizes
differ), writes max(0, in[i]) into the first in->size cells of the
output data buffer, leaves the remaining cells of the output buffer
unchanged, and leaves the input tensor unchanged. -/
theorem C10_relu_standalone (tin tout : CTensorQ) :
    (ctensor_relu tin tout).2.size = tin.size
    ∧ (∀ i, i < tin.size → (ctensor_relu tin tout).2.data i = max 0 (tin.data i))
    ∧ (∀ i, tin.size ≤ i → (ctensor_relu tin tout).2.data i = tout.data i)
    ∧ (ctensor_relu tin tout).1 = tin := by
  refine ⟨rfl, ?_, ?_, rfl⟩
  · intro i hi
    show ((List.range tin.size).foldl
      (fun d_out i => wr d_out i (if tin.data i < 0 then 0 else tin.data i))
      tout.data) i = _
    rw [foldl_wr_range, if_pos hi, if_neg_lt_eq_max]
  · intro i hi
    show ((List.range tin.size).foldl
      (fun d_out i => wr d_out i (if tin.data i < 0 then 0 else tin.data i))
      tout.data) i = _
    rw [foldl_wr_range, if_neg (not_lt.mpr hi)]

/-- Witness for C10: an input of size 1 with data [-2] against an
output tensor whose size field is 99: the result's size field is 1,
cell 0 becomes 0, and cell 5 keeps its old contents. -/
theorem C10_relu_standalone_witness :
    (ctensor_relu ⟨1, listBuf [-2]⟩ ⟨99, listBuf [8, 8, 8, 8, 8, 8]⟩).2.size = 1
    ∧ (ctensor_relu ⟨1, listBuf [-2]⟩ ⟨99, listBuf [8, 8, 8, 8, 8, 8]⟩).2.data 0 = 0
    ∧ (ctensor_relu ⟨1, listBuf [-2]⟩ ⟨99, listBuf [8, 8, 8, 8, 8, 8]⟩).2.data 5 = 8 := by
  have h := C10_relu_standalone ⟨1, listBuf [-2]⟩ ⟨99, listBuf [8, 8, 8, 8, 8, 8]⟩
  refine ⟨h.1, ?_, ?_⟩
  · rw [h.2.1 0 (by decide)]; norm_num [listBuf]
  · rw [h.2.2.1 5 (by decide)]; norm_num [listBuf]

/-- Claim C2: during the backward traversal from the tail toward the
head, the first layer whose bckp callback is NULL stops the traversal:
its backward is not invoked, no layer at or past its traversal position
is invoked (only the layers strictly before it are), and the slices
accumulated into the flat gradient are exactly those produced by the
layers before it. -/
theorem C2_bckp_break (pre post : List BLayer) (l : BLayer) (grad_size : ℕ)
    (hl : l.hasBckp = false) (hpre : ∀ p ∈ pre, p.hasBckp = true) :
    (ct_do_bckp (pre ++ l :: post) grad_size).1 = List.range pre.length
    ∧ (∀ k, pre.length ≤ k → k ∉ (ct_do_bckp (pre ++ l :: post) grad_size).1)
    ∧ (ct_do_bckp (pre ++ l :: post) grad_size).2.1 =
        (ct_do_bckp_walk pre 0 0).2.1 := by
  have hb := ct_do_bckp_walk_break l hl pre post 0 0
  have h1 : (ct_do_bckp (pre ++ l :: post) grad_size).1 = List.range pre.length := by
    show (ct_do_bckp_walk (pre ++ l :: post) 0 0).1 = _
    rw [hb, ct_do_bckp_walk_invoked pre hpre, List.range_eq_range']
  refine ⟨h1, ?_, ?_⟩
  · intro k hk
    rw [h1, List.mem_range]
    omega
  · show (ct_do_bckp_walk (pre ++ l :: post) 0 0).2.1 = _
    rw [hb]

/-- Witness for C2: a chain of two bckp-capable layers followed by a
bckp-less layer and one more layer; only the first two are invoked and
only the first contributes a slice. -/
theorem C2_bckp_break_witness :
    (ct_do_bckp ([⟨true, some 2⟩, ⟨true, none⟩] ++ ⟨false, some 5⟩ :: [⟨true, some 7⟩]) 2).1 =
      List.range 2
    ∧ (ct_do_bckp ([⟨true, some 2⟩, ⟨true, none⟩] ++ ⟨false, some 5⟩ :: [⟨true, some 7⟩]) 2).2.1 =
        (ct_do_bckp_walk [⟨true, some 2⟩, ⟨true, none⟩] 0 0).2.1 := by
  have h := C2_bckp_break [⟨true, some 2⟩, ⟨true, none⟩] [⟨true, some 7⟩]
    ⟨false, some 5⟩ 2 rfl (by decide)
  exact ⟨h.1, h.2.2⟩

/-- Counterexample to claim C9 as stated: the claim quantifies over
every model and every flat gradient tensor, but for a model consisting
of only the start layer and a gradient tensor of size 5 the walk
advances the pointer by nothing and still moves it back by 5, a net
displacement of -5. -/
theorem C9_counterexample : ¬ ((ct_do_bckp [startLayer] 5).2.2 = 0) := by
  decide

/-- Claim C9 amended: one call to _ct_do_bckp advances grad->data by
internal_grad->size for each trainable layer visited and finally moves
it back by the grad->size captured at entry; these cancel exactly when
every layer of the chain except the start layer has a bckp callback and
grad->size equals the model's total trainable-parameter size as
computed by _ct_get_model_param_size (which is how the training loop
sizes the tensor); in that case the net movement is zero and every
accumulated slice stays within the first grad->size cells of the
buffer.  (`hs` is the chain above the start layer in head-to-tail
order, so the backward walk sees hs.reverse followed by the start
layer.) -/
theorem C9_bckp_ptr (hs : List BLayer) (grad_size : ℕ)
    (hall : ∀ p ∈ hs, p.hasBckp = true)
    (hg : grad_size = ct_get_model_param_size hs) :
    (ct_do_bckp (hs.reverse ++ [startLayer]) grad_size).2.2 = 0
    ∧ ∀ os ∈ (ct_do_bckp (hs.reverse ++ [startLayer]) grad_size).2.1,
        os.1 + os.2 ≤ grad_size := by
  have hrev : ∀ p ∈ hs.reverse, p.hasBckp = true := by
    intro p hp
    exact hall p (List.mem_reverse.mp hp)
  have hb := ct_do_bckp_walk_break startLayer rfl hs.reverse [] 0 0
  constructor
  · show ((ct_do_bckp_walk (hs.reverse ++ [startLayer]) 0 0).2.2 : ℤ) - grad_size = 0
    rw [hb, ct_do_bckp_walk_off hs.reverse hrev, ct_get_model_param_size_reverse, hg]
    simp
  · intro os hos
    have hc : (ct_do_bckp (hs.reverse ++ [startLayer]) grad_size).2.1 =
        (ct_do_bckp_walk hs.reverse 0 0).2.1 := by
      show (ct_do_bckp_walk (hs.reverse ++ [startLayer]) 0 0).2.1 = _
      rw [hb]
    rw [hc] at hos
    have h2 := ct_do_bckp_walk_slices hs.reverse hrev 0 0 os hos
    rw [ct_do_bckp_walk_off hs.reverse hrev, ct_get_model_param_size_reverse] at h2
    omega

/-- Witness for C9: a model with two trainable layers of parameter
sizes 3 and 2 and a gradient tensor of size 5 ends the walk with zero
net pointer movement. -/
theorem C9_bckp_ptr_witness :
    (ct_do_bckp (([⟨true, some 3⟩, ⟨true, some 2⟩] : List BLayer).reverse ++ [startLayer]) 5).2.2 = 0 :=
  (C9_bckp_ptr [⟨true, some 3⟩, ⟨true, some 2⟩] 5 (by decide) (by decide)).1

/-- Counterexample to claim C7 as stated: with batch_size = 2, strides
1 and 1 and training tensors whose size fields are 5, the pointers end
the batch displaced by -3, not back at their entry positions — the C
code moves them back by the tensors' size fields, not by the distance
advanced. -/
theorem C7_counterexample : ¬ (ct_train_batch_ptrs 2 1 1 5 5 = (0, 0)) := by
  decide

/-- Claim C7 amended: within one batch the x_train and y_train data
pointers advance by a per-example stride equal to the model's input and
output size respectively, and after the batch each is moved back by the
corresponding tensor's size field, for a net displacement of
batch_size*stride - size; the pointers are restored to their entry
positions exactly when each tensor's size field equals batch_size times
its stride (i.e. when the tensor holds exactly one batch of
examples). -/
theorem C7_batch_ptrs (batch_size in_s out_s x_size y_size : ℕ) :
    ct_train_batch_ptrs batch_size in_s out_s x_size y_size =
      ((batch_size * in_s : ℤ) - (x_size : ℤ), (batch_size * out_s : ℤ) - (y_size : ℤ))
    ∧ (x_size = batch_size * in_s → y_size = batch_size * out_s →
        ct_train_batch_ptrs batch_size in_s out_s x_size y_size = (0, 0)) := by
  have h1 : ct_train_batch_ptrs batch_size in_s out_s x_size y_size =
      ((batch_size * in_s : ℤ) - (x_size : ℤ), (batch_size * out_s : ℤ) - (y_size : ℤ)) := by
    rw [ct_train_batch_ptrs, foldl_const_add]
    simp
  refine ⟨h1, ?_⟩
  intro hx hy
  rw [h1, hx, hy]
  push_cast
  simp

/-- Witness for C7: batch_size 2 with input stride 3 and output stride
1 against tensors of sizes 6 and 2 (exactly one batch each): both
pointers return to their entry positions. -/
theorem C7_batch_ptrs_witness : ct_train_batch_ptrs 2 3 1 6 2 = (0, 0) :=
  (C7_batch_ptrs 2 3 1 6 2).2 (by decide) (by decide)

/-- Claim C3: one Adam step overwrites, for every element i of the
gradient vector, m[i] with b1*m[i] + (1-b1)*g[i] and v[i] with
b2*v[i] + (1-b2)*g[i]^2, and g[i] with -lr*mhat / (sqrt(vhat) + 1e-7)
where mhat and vhat are the bias-corrected new moments at step t; the
optimizer wrapper runs _ct_adam with its stored t (so the k-th step
uses t = k) and lazily-zeroed moment buffers, and increments t only
afterwards; the initial optimizer state has t = 1, b1 = 0.99,
b2 = 0.999 and no moment buffers; and the first step on g = [1.0] with
lr = 0.01 produces m[0] = 0.01, v[0] = 0.001, g[0] = -0.01/(1 + 1e-7)
and step counter 2. -/
theorem C3_adam_correct (d : AdamData) (n : ℕ) (g m v : Buf ℝ)
    (b1 b2 lr : ℝ) (t : ℕ) (i : ℕ) (hi : i < n) :
    (ct_adam n g m v b1 b2 lr t).2.1 i = b1 * m i + (1 - b1) * g i
    ∧ (ct_adam n g m v b1 b2 lr t).2.2 i = b2 * v i + (1 - b2) * (g i * g i)
    ∧ (ct_adam n g m v b1 b2 lr t).1 i =
        (-lr * ((b1 * m i + (1 - b1) * g i) / (1 - b1 ^ t))) /
          (Real.sqrt ((b2 * v i + (1 - b2) * (g i * g i)) / (1 - b2 ^ t)) + 1e-7)
    ∧ ct_adam_opt d n g lr =
        ((ct_adam n g (d.m.getD (fun _ => 0)) (d.v.getD (fun _ => 0)) d.b1 d.b2 lr d.t).1,
         { t := d.t + 1, b1 := d.b1, b2 := d.b2,
           m := some (ct_adam n g (d.m.getD (fun _ => 0)) (d.v.getD (fun _ => 0)) d.b1 d.b2 lr d.t).2.1,
           v := some (ct_adam n g (d.m.getD (fun _ => 0)) (d.v.getD (fun _ => 0)) d.b1 d.b2 lr d.t).2.2 })
    ∧ ctensor_adam_init = { t := 1, b1 := 0.99, b2 := 0.999, m := none, v := none }
    ∧ ((ct_adam_opt ctensor_adam_init 1 (fun _ => 1) 0.01).2.m.getD (fun _ => 0)) 0 = 0.01
    ∧ ((ct_adam_opt ctensor_adam_init 1 (fun _ => 1) 0.01).2.v.getD (fun _ => 0)) 0 = 0.001
    ∧ (ct_adam_opt ctensor_adam_init 1 (fun _ => 1) 0.01).1 0 = -0.01 / (1 + 1e-7)
    ∧ (ct_adam_opt ctensor_adam_init 1 (fun _ => 1) 0.01).2.t = 2 := by
  obtain ⟨h1, h2, h3⟩ := ct_adam_get g m v b1 b2 lr t n i
  rw [if_pos hi] at h1 h2 h3
  have hopt : ∀ (d : AdamData) (n : ℕ) (g : Buf ℝ) (lr : ℝ),
      ct_adam_opt d n g lr =
        ((ct_adam n g (d.m.getD (fun _ => 0)) (d.v.getD (fun _ => 0)) d.b1 d.b2 lr d.t).1,
         { t := d.t + 1, b1 := d.b1, b2 := d.b2,
           m := some (ct_adam n g (d.m.getD (fun _ => 0)) (d.v.getD (fun _ => 0)) d.b1 d.b2 lr d.t).2.1,
           v := some (ct_adam n g (d.m.getD (fun _ => 0)) (d.v.getD (fun _ => 0)) d.b1 d.b2 lr d.t).2.2 }) := by
    intro d n g lr
    cases hdm : d.m <;> cases hdv : d.v <;>
      simp [ct_adam_opt, hdm, hdv, Option.getD]
  obtain ⟨k1, k2, k3⟩ := ct_adam_get (fun _ => (1 : ℝ)) (fun _ => 0) (fun _ => 0)
    (0.99 : ℝ) (0.999 : ℝ) (0.01 : ℝ) 1 1 0
  rw [if_pos Nat.one_pos] at k1 k2 k3
  refine ⟨h2, h3, h1, hopt d n g lr, rfl, ?_, ?_, ?_, ?_⟩
  · rw [hopt]
    show (ct_adam 1 (fun _ => (1 : ℝ)) (fun _ => 0) (fun _ => 0) 0.99 0.999 0.01 1).2.1 0 = 0.01
    rw [k2]
    norm_num
  · rw [hopt]
    show (ct_adam 1 (fun _ => (1 : ℝ)) (fun _ => 0) (fun _ => 0) 0.99 0.999 0.01 1).2.2 0 = 0.001
    rw [k3]
    norm_num
  · rw [hopt]
    show (ct_adam 1 (fun _ => (1 : ℝ)) (fun _ => 0) (fun _ => 0) 0.99 0.999 0.01 1).1 0 = -0.01 / (1 + 1e-7)
    rw [k1]
    norm_num [Real.sqrt_one]
  · rw [hopt]
    rfl

/-- Witness for C3: the first-step values on g = [1.0], lr = 0.01
extracted from the claim theorem at concrete arguments. -/
theorem C3_adam_correct_witness :
    (ct_adam_opt ctensor_adam_init 1 (fun _ => 1) 0.01).1 0 = -0.01 / (1 + 1e-7) :=
  (C3_adam_correct ctensor_adam_init 1 (fun _ => 1) (fun _ => 0) (fun _ => 0)
    0.99 0.999 0.01 1 0 Nat.one_pos).2.2.2.2.2.2.2.1

/-- Claim C4: each draw of the bit generator returns the float obtained
by taking ((s0+s3) >> 9) | 0x3f800000 (computed from the pre-update
state, 32-bit arithmetic) as an IEEE-754 bit pattern — a float in
[1,2) — and subtracting 1.0, so the returned value lies in [0,1);
the state is updated only afterwards, by the xoshiro128+ recurrence
t = s1<<9; s2^=s0; s3^=s1; s1^=s2; s0^=s3; s2^=t; s3 = rotl(s3,11)
(here written with the sequential assignments resolved against the
pre-update words), and the four words stay below 2^32. -/
theorem C4_xoshiro128p_draw (s : XState)
    (h0 : s.s0 < 2 ^ 32) (h1 : s.s1 < 2 ^ 32)
    (h2 : s.s2 < 2 ^ 32) (h3 : s.s3 < 2 ^ 32) :
    (xoshiro128p s).1 =
      floatBits127 ((((s.s0 + s.s3) % 2 ^ 32) >>> 9) ||| 0x3f800000) - 1
    ∧ 1 ≤ floatBits127 ((((s.s0 + s.s3) % 2 ^ 32) >>> 9) ||| 0x3f800000)
    ∧ floatBits127 ((((s.s0 + s.s3) % 2 ^ 32) >>> 9) ||| 0x3f800000) < 2
    ∧ 0 ≤ (xoshiro128p s).1
    ∧ (xoshiro128p s).1 < 1
    ∧ (xoshiro128p s).2.s0 = s.s0 ^^^ (s.s3 ^^^ s.s1)
    ∧ (xoshiro128p s).2.s1 = s.s1 ^^^ (s.s2 ^^^ s.s0)
    ∧ (xoshiro128p s).2.s2 = (s.s2 ^^^ s.s0) ^^^ ((s.s1 <<< 9) % 2 ^ 32)
    ∧ (xoshiro128p s).2.s3 = ROTL (s.s3 ^^^ s.s1) 11
    ∧ (xoshiro128p s).2.s0 < 2 ^ 32 ∧ (xoshiro128p s).2.s1 < 2 ^ 32
    ∧ (xoshiro128p s).2.s2 < 2 ^ 32 ∧ (xoshiro128p s).2.s3 < 2 ^ 32 := by
  have hand : ∀ b : ℕ, (b % 2 ^ 23) < 2 ^ 23 :=
    fun b => Nat.mod_lt _ (by norm_num)
  have hval : ∀ b : ℕ, (0 : ℚ) ≤ ((b % 2 ^ 23 : ℕ) : ℚ) / 2 ^ 23 ∧
      ((b % 2 ^ 23 : ℕ) : ℚ) / 2 ^ 23 < 1 := by
    intro b
    constructor
    · positivity
    · rw [div_lt_one (by positivity)]
      have := hand b
      exact_mod_cast this
  obtain ⟨hv0, hv1⟩ := hval ((((s.s0 + s.s3) % 2 ^ 32) >>> 9) ||| 0x3f800000)
  have hshift : ∀ x : ℕ, x < 2 ^ 32 → x >>> (32 - 11) < 2 ^ 32 := by
    intro x hx
    calc x >>> 21 ≤ x := by
          rw [Nat.shiftRight_eq_div_pow]
          exact Nat.div_le_self _ _
      _ < 2 ^ 32 := hx
  have hrotl : ∀ x : ℕ, x < 2 ^ 32 → ROTL x 11 < 2 ^ 32 := by
    intro x hx
    rw [ROTL]
    exact Nat.or_lt_two_pow (Nat.mod_lt _ (by norm_num)) (hshift x hx)
  refine ⟨rfl, ?_, ?_, ?_, ?_, rfl, rfl, rfl, rfl, ?_, ?_, ?_, ?_⟩
  · rw [floatBits127]
    linarith [hv0]
  · rw [floatBits127]
    linarith [hv1]
  · show (0 : ℚ) ≤ floatBits127 _ - 1
    rw [floatBits127]
    linarith [hv0]
  · show floatBits127 _ - 1 < 1
    rw [floatBits127]
    linarith [hv1]
  · exact Nat.xor_lt_two_pow h0 (Nat.xor_lt_two_pow h3 h1)
  · exact Nat.xor_lt_two_pow h1 (Nat.xor_lt_two_pow h2 h0)
  · exact Nat.xor_lt_two_pow (Nat.xor_lt_two_pow h2 h0) (Nat.mod_lt _ (by norm_num))
  · exact hrotl _ (Nat.xor_lt_two_pow h3 h1)

/-- Witness for C4: a concrete in-range state; the draw lies in [0,1)
and the new s3 is the rotation of the xor of the old s3 and s1. -/
theorem C4_xoshiro128p_draw_witness :
    0 ≤ (xoshiro128p ⟨1, 2, 3, 4⟩).1
    ∧ (xoshiro128p ⟨1, 2, 3, 4⟩).1 < 1
    ∧ (xoshiro128p ⟨1, 2, 3, 4⟩).2.s3 = ROTL (4 ^^^ 2) 11 := by
  have h := C4_xoshiro128p_draw ⟨1, 2, 3, 4⟩
    (by decide) (by decide) (by decide) (by decide)
  exact ⟨h.2.2.2.1, h.2.2.2.2.1, h.2.2.2.2.2.2.2.2.1⟩

/-- Counterexample to claim C1 as stated, at in_size = 3, out_size = 2,
in = [1,2,3], W = [10,20,30,40,50,60], loss_grad = [1,100].  The claim
puts kernel_grad[1,0] at flat index 1*in_size+0 = 3 with value
in[0]*loss_grad[1] = 100, but the code indexes the flat buffer with
stride out_size and that cell ends up holding in[1]*loss_grad[1] = 200;
and the claim makes in_grad[0] the sum over i of in[0]*loss_grad[i]
= 101, but the code accumulates kernel[i*out_size+0]*loss_grad[i]
= 10*1 + 30*100 = 3010. -/
theorem C1_fcl_bckp_counterexample :
    ¬ ((ctensor_fcl_bckp 3 2 (listBuf [1, 2, 3]) (listBuf [10, 20, 30, 40, 50, 60])
        (listBuf [1, 100]) (listBuf []) (listBuf [])).internal_grad (1 * 3 + 0) =
      listBuf [1, 2, 3] 0 * listBuf [1, 100] 1)
    ∧ ¬ ((ctensor_fcl_bckp 3 2 (listBuf [1, 2, 3]) (listBuf [10, 20, 30, 40, 50, 60])
        (listBuf [1, 100]) (listBuf []) (listBuf [])).in_grad 0 =
      listBuf [1, 2, 3] 0 * listBuf [1, 100] 0 + listBuf [1, 2, 3] 0 * listBuf [1, 100] 1) := by
  constructor <;>
    norm_num [ctensor_fcl_bckp, fcl_bckp_row, fcl_bckp_store, wr, listBuf, List.range_succ]

/-- Claim C1 amended: the FCL backward pass indexes both the flat
kernel-gradient block and the weight matrix with row stride out_size
(not in_size), and accumulates the weights, not the kernel gradients,
into in_grad.  For out_size ≤ in_size (the writes then stay inside the
internal_grad buffer and the weight reads inside the kernel buffer):
in_grad[j] = sum over i of kernel[i*out_size+j]*loss_grad[i] from a
zero-initialized in_grad, for every j < in_size; bias_grad[i] (flat
cell out_size*in_size + i) = loss_grad[i] for every i < out_size; and
when in_size = out_size (so the row strides agree and no cell is
written twice) the kernel-gradient cell at flat index i*out_size+j
holds in[j]*loss_grad[i]. -/
theorem C1_fcl_bckp_amended (in_size out_size : ℕ)
    (inp kernel loss_grad in_grad0 internal_grad0 : Buf ℚ)
    (hoi : out_size ≤ in_size) :
    (∀ j, j < in_size →
      (ctensor_fcl_bckp in_size out_size inp kernel loss_grad
          in_grad0 internal_grad0).in_grad j =
        ∑ i ∈ Finset.range out_size, kernel (i * out_size + j) * loss_grad i)
    ∧ (∀ i, i < out_size →
      (ctensor_fcl_bckp in_size out_size inp kernel loss_grad
          in_grad0 internal_grad0).internal_grad (out_size * in_size + i) = loss_grad i)
    ∧ (in_size = out_size → ∀ i j, i < out_size → j < in_size →
      (ctensor_fcl_bckp in_size out_size inp kernel loss_grad
          in_grad0 internal_grad0).internal_grad (i * out_size + j) =
        inp j * loss_grad i) := by
  refine ⟨?_, ?_, ?_⟩
  · intro j hj
    rw [ctensor_fcl_bckp]
    rw [fcl_outer_ig in_size out_size inp kernel loss_grad out_size _ j hj]
    show ((List.range in_size).foldl (fun g i => wr g i 0) in_grad0) j + _ = _
    rw [foldl_wr_range (fun _ => (0 : ℚ)) in_size in_grad0 j, if_pos hj, zero_add]
  · intro i hi
    rw [ctensor_fcl_bckp]
    exact fcl_outer_bias in_size out_size inp kernel loss_grad hoi out_size
      (le_refl out_size) _ i hi
  · intro hsq i j hi hj
    rw [ctensor_fcl_bckp]
    exact fcl_outer_kernel in_size out_size inp kernel loss_grad hsq out_size
      (le_refl out_size) _ i j hi hj

/-- Witness for the amended C1: a 2x2 layer with in = [1,2],
W = [10,20,30,40], loss_grad = [5,7]: in_grad[0] = 10*5 + 30*7 = 260,
kernel_grad cell (1,0) (flat index 2) = in[0]*loss_grad[1] = 7, and
bias cell 2*2+1 = loss_grad[1] = 7. -/
theorem C1_fcl_bckp_amended_witness :
    (ctensor_fcl_bckp 2 2 (listBuf [1, 2]) (listBuf [10, 20, 30, 40])
        (listBuf [5, 7]) (listBuf []) (listBuf [])).in_grad 0 = 260
    ∧ (ctensor_fcl_bckp 2 2 (listBuf [1, 2]) (listBuf [10, 20, 30, 40])
        (listBuf [5, 7]) (listBuf []) (listBuf [])).internal_grad (1 * 2 + 0) = 7
    ∧ (ctensor_fcl_bckp 2 2 (listBuf [1, 2]) (listBuf [10, 20, 30, 40])
        (listBuf [5, 7]) (listBuf []) (listBuf [])).internal_grad (2 * 2 + 1) = 7 := by
  have h := C1_fcl_bckp_amended 2 2 (listBuf [1, 2]) (listBuf [10, 20, 30, 40])
    (listBuf [5, 7]) (listBuf []) (listBuf []) (by norm_num)
  refine ⟨?_, ?_, ?_⟩
  · rw [h.1 0 (by norm_num)]
    norm_num [listBuf, Finset.sum_range_succ]
  · rw [h.2.2 rfl 1 0 (by norm_num) (by norm_num)]
    norm_num [listBuf]
  · rw [h.2.1 1 (by norm_num)]
    norm_num [listBuf]

/-- Claim C8: the normal-fill generator processes output elements in
pairs.  Every accepted pair (x, y, s) of the rejection loop satisfies
s = x^2 + y^2 with 0 < s < 1 (drawing is repeated until this holds);
with an even element count 2m the output is exactly x*chi, y*chi for
each accepted pair in order, with chi = sqrt(-2*ln(s)/s); and with the
odd count 2m+1 the final element still runs a full pair draw — both
uniform draws and the rejection loop, leaving the generator in the
state after that complete draw — and stores only the first product
x*chi of the pair. -/
theorem C8_randn_marsaglia (fuel m seed : ℕ) (ps : List (ℚ × ℚ × ℚ)) (stf : XState)
    (hp : pair_iter fuel m (seedState seed) = some (ps, stf)) :
    (∀ p ∈ ps, p.2.2 = p.1 * p.1 + p.2.1 * p.2.1 ∧ 0 < p.2.2 ∧ p.2.2 < 1)
    ∧ (∃ y2 chi2, ctensor_randn fuel (2 * m) seed = some (pairs_out ps, stf, y2, chi2))
    ∧ (∀ x y s st2, polar_reject fuel stf = some (x, y, s, st2) →
        ctensor_randn fuel (2 * m + 1) seed =
          some (pairs_out ps ++ [(x : ℝ) * chiOf s], st2, y, chiOf s)) := by
  refine ⟨pair_iter_sound fuel m _ ps stf hp, ?_, ?_⟩
  · rw [ctensor_randn, List.range_eq_range']
    exact randn_loop_pairs fuel m 0 (seedState seed) 0 0 ps stf rfl hp
  · intro x y s st2 hpr
    rw [ctensor_randn, List.range_eq_range']
    have hsplit : List.range' 0 (2 * m + 1) = List.range' 0 (2 * m) ++ [2 * m] := by
      rw [List.range'_concat]
      simp
    rw [hsplit, randn_loop_append]
    obtain ⟨y3, chi3, hev⟩ := randn_loop_pairs fuel m 0 (seedState seed) 0 0 ps stf rfl hp
    rw [hev]
    dsimp only
    have h2m : (2 * m) % 2 = 0 := by omega
    rw [randn_loop, if_pos h2m, hpr]
    dsimp only
    rw [randn_loop]

/-- Witness for C8: with seed 0 the first pair draw is accepted
immediately (fuel 1 suffices), so filling two elements emits the two
products of that accepted pair and ends in the post-draw state. -/
theorem C8_randn_marsaglia_witness :
    ∃ y2 chi2, ctensor_randn 1 2 0 =
      some (pairs_out [(-80013/2097152, -183959/1048576, 141765734893/4398046511104)],
        ⟨2001739342, 2065550767, 3631028118, 1855916130⟩, y2, chi2) :=
  (C8_randn_marsaglia 1 1 0
    [(-80013/2097152, -183959/1048576, 141765734893/4398046511104)]
    ⟨2001739342, 2065550767, 3631028118, 1855916130⟩
    (by
      simp [pair_iter, polar_reject, seedState, splitmix64, xoshiro128p, floatBits127, ROTL]
      norm_num)).2.1

end CTensor
